import Mathlib

/-!
Verification of the boundary/density preprocessing subsystem of `pygridgen`.

The repository ships only documentation (README, build guides, and the
tutorial notebook); the Python implementation of the `Focus` and `Gridgen`
classes is not part of the source tree.  Every operational definition below
is therefore modelled from the specification text (marked
`Modelled from the spec:`), and the theorems check the specification's
claims against that model.
-/

namespace Pygridgen

/-- Modelled from the spec: the error taxonomy of §7 (the Python code that
raises these is missing from the source tree). -/
inductive GridError
  | InvalidBoundary
  | IndexOutOfRange
  | DegenerateFocus
  | GridGenerationFailed
  deriving DecidableEq

/-- Modelled from the spec: one boundary vertex — an (x, y) position together
with its turning number β (§3, "Boundary"). -/
structure Vertex where
  x : ℚ
  y : ℚ
  beta : ℤ
  deriving DecidableEq

/-- The sum of the turning numbers of a boundary. -/
def betaSum (vs : List Vertex) : ℤ :=
  (vs.map Vertex.beta).sum

/-- A turning number is admissible when it lies in {−1, 0, +1}. -/
def betaInRange (b : ℤ) : Bool :=
  b == -1 || b == 0 || b == 1

/-- Modelled from the spec: `validate(positions, betas)` of §4.1 (the
`Gridgen` constructor validation is missing from the source tree).  It fails
with `InvalidBoundary` if there are fewer than 4 vertices, if some β is
outside {−1, 0, 1}, or if Σβ ≠ 4; otherwise it returns the boundary. -/
def validate (vs : List Vertex) : Except GridError (List Vertex) :=
  if vs.length < 4 then .error .InvalidBoundary
  else if ¬ (vs.all fun v => betaInRange v.beta) then .error .InvalidBoundary
  else if betaSum vs ≠ 4 then .error .InvalidBoundary
  else .ok vs

/-- The cyclic re-indexing underlying `rotate`: vertex `k` becomes index 0 and
the cyclic order is preserved. -/
def rotateList (vs : List Vertex) (k : ℕ) : List Vertex :=
  vs.drop k ++ vs.take k

/-- Modelled from the spec: `rotate(offset)` of §4.1 (the `ul_idx` handling of
the `Gridgen` class is missing from the source tree).  It re-indexes the
boundary so that vertex `offset` becomes index 0, preserving the cyclic
order, and fails with `IndexOutOfRange` when `offset ∉ [0, N)`. -/
def rotate (vs : List Vertex) (k : ℕ) : Except GridError (List Vertex) :=
  if k < vs.length then .ok (rotateList vs k) else .error .IndexOutOfRange

/-- The trapezoid boundary of the tutorial and of §8: β sums to 4, five
vertices, all β in range, so it validates. -/
def trapezoid : List Vertex :=
  [⟨1/2, 1/2, 1⟩, ⟨2, 1/2, 1⟩, ⟨5/2, 2, 1⟩, ⟨3/2, 2, 1⟩, ⟨1/2, 1/2, 0⟩]

/-- The invalid boundary of §8: β = [1,1,1,1,1] sums to 5, not 4. -/
def badBoundary : List Vertex :=
  [⟨0, 0, 1⟩, ⟨1, 0, 1⟩, ⟨2, 1, 1⟩, ⟨1, 2, 1⟩, ⟨0, 1, 1⟩]

theorem rotateList_eq_rotate {vs : List Vertex} {k : ℕ} (h : k ≤ vs.length) :
    rotateList vs k = vs.rotate k :=
  (List.rotate_eq_drop_append_take h).symm

theorem validate_ok_inv {vs b : List Vertex} (h : validate vs = .ok b) :
    b = vs ∧ 4 ≤ vs.length ∧ (∀ v ∈ vs, betaInRange v.beta) ∧ betaSum vs = 4 := by
  unfold validate at h
  split_ifs at h with h1 h2 h3
  cases h
  exact ⟨rfl, by omega, fun v hv => List.all_eq_true.mp h2 v hv, by omega⟩

theorem betaSum_rotateList (vs : List Vertex) (k : ℕ) :
    betaSum (rotateList vs k) = betaSum vs := by
  unfold betaSum rotateList
  rw [List.map_append, List.sum_append, add_comm, ← List.sum_append, ← List.map_append,
    List.take_append_drop]

theorem betaInRange_iff (b : ℤ) : betaInRange b = true ↔ b = -1 ∨ b = 0 ∨ b = 1 := by
  simp [betaInRange, or_assoc]

/-- C4: `validate(positions, betas)` fails with `InvalidBoundary` exactly when
the boundary has fewer than 4 vertices, or some turning number β is outside
{−1, 0, +1}, or Σβ ≠ 4; in particular a boundary with β = [1,1,1,1,1]
(Σβ = 5) fails, and a valid boundary (Σβ = 4, N ≥ 4, all β in range)
passes. -/
theorem validate_invalidBoundary_iff (vs : List Vertex) :
    (validate vs = .error .InvalidBoundary ↔
      vs.length < 4 ∨ (∃ v ∈ vs, v.beta ≠ -1 ∧ v.beta ≠ 0 ∧ v.beta ≠ 1) ∨ betaSum vs ≠ 4) ∧
    validate badBoundary = .error .InvalidBoundary ∧
    validate trapezoid = .ok trapezoid := by
  refine ⟨⟨?_, ?_⟩, by rfl, by rfl⟩
  · intro h
    unfold validate at h
    split_ifs at h with h1 h2 h3
    · exact .inl h1
    · exact .inr (.inr h3)
    · rw [List.all_eq_true] at h2
      push_neg at h2
      obtain ⟨v, hv, hb⟩ := h2
      have hv3 : ¬(v.beta = -1 ∨ v.beta = 0 ∨ v.beta = 1) := fun hc =>
        hb ((betaInRange_iff v.beta).mpr hc)
      push_neg at hv3
      exact .inr (.inl ⟨v, hv, hv3⟩)
  · intro h
    unfold validate
    split_ifs with h1 h2 h3
    · rfl
    · rfl
    · exfalso
      rcases h with h | h | h
      · omega
      · obtain ⟨v, hv, hb⟩ := h
        have hall := List.all_eq_true.mp h2 v hv
        rw [betaInRange_iff] at hall
        tauto
      · omega
    · rfl

/-- C5: rotation composition law — rotating by `k1` and then by `k2` is the
same as rotating once by `(k1 + k2) % N`, for in-range offsets. -/
theorem rotate_comp (b : List Vertex) (k1 k2 : ℕ)
    (h1 : k1 < b.length) (h2 : k2 < b.length) :
    (rotate b k1).bind (fun c => rotate c k2) = rotate b ((k1 + k2) % b.length) := by
  have hlen : 0 < b.length := Nat.lt_of_le_of_lt (Nat.zero_le _) h1
  have hr1 : rotateList b k1 = b.rotate k1 := rotateList_eq_rotate h1.le
  have hlen1 : (rotateList b k1).length = b.length := by
    rw [hr1, List.length_rotate]
  have hmod : (k1 + k2) % b.length < b.length := Nat.mod_lt _ hlen
  have e1 : rotate b k1 = .ok (rotateList b k1) := by
    simp [rotate, h1]
  have e2 : rotate (rotateList b k1) k2 = .ok (rotateList (rotateList b k1) k2) := by
    have : k2 < (rotateList b k1).length := by omega
    simp [rotate, this]
  have e3 : rotate b ((k1 + k2) % b.length) = .ok (rotateList b ((k1 + k2) % b.length)) := by
    simp [rotate, hmod]
  have key : rotateList (rotateList b k1) k2 = rotateList b ((k1 + k2) % b.length) := by
    rw [rotateList_eq_rotate (by omega), hr1, List.rotate_rotate,
      rotateList_eq_rotate hmod.le, List.rotate_mod]
  rw [e1]
  show rotate (rotateList b k1) k2 = rotate b ((k1 + k2) % b.length)
  rw [e2, e3, key]

theorem rotate_comp_witness :
    (rotate trapezoid 3).bind (fun c => rotate c 4) = rotate trapezoid ((3 + 4) % trapezoid.length) :=
  rotate_comp trapezoid 3 4 (by decide) (by decide)

/-- C6: for a boundary that passed validation (so Σβ = 4) and any in-range
offset, rotation succeeds, permutes the β values cyclically (relabeling, not
modification), and the rotated boundary still has Σβ = 4. -/
theorem rotate_preserves_betaSum (vs b : List Vertex) (k : ℕ)
    (hv : validate vs = .ok b) (hk : k < b.length) :
    rotate b k = .ok (rotateList b k) ∧
    (rotateList b k).map Vertex.beta =
      (b.map Vertex.beta).drop k ++ (b.map Vertex.beta).take k ∧
    betaSum (rotateList b k) = 4 := by
  obtain ⟨hb, -, -, hsum⟩ := validate_ok_inv hv
  subst hb
  refine ⟨by simp [rotate, hk], ?_, ?_⟩
  · simp [rotateList, List.map_append, List.map_drop, List.map_take]
  · rw [betaSum_rotateList]
    exact hsum

theorem rotate_preserves_betaSum_witness :
    rotate trapezoid 2 = .ok (rotateList trapezoid 2) ∧
    (rotateList trapezoid 2).map Vertex.beta =
      (trapezoid.map Vertex.beta).drop 2 ++ (trapezoid.map Vertex.beta).take 2 ∧
    betaSum (rotateList trapezoid 2) = 4 :=
  rotate_preserves_betaSum trapezoid trapezoid 2 (by rfl) (by decide)

/-- C8: `rotate(offset)` fails with `IndexOutOfRange` exactly when the offset
is out of `[0, N)` (in particular at `offset = N`), and an in-range offset
succeeds, preserving the length and re-indexing cyclically so that index `i`
of the result is index `(i + offset) % N` of the original (index 0 is the
former vertex `offset`). -/
theorem rotate_error_iff (b : List Vertex) (k : ℕ) :
    (b.length ≤ k → rotate b k = .error .IndexOutOfRange) ∧
    (k < b.length →
      rotate b k = .ok (rotateList b k) ∧
      (rotateList b k).length = b.length ∧
      ∀ i, i < b.length → (rotateList b k)[i]? = b[(i + k) % b.length]?) := by
  constructor
  · intro h
    simp [rotate, Nat.not_lt.mpr h]
  · intro h
    refine ⟨by simp [rotate, h], ?_, ?_⟩
    · rw [rotateList_eq_rotate h.le, List.length_rotate]
    · intro i hi
      rw [rotateList_eq_rotate h.le, List.getElem?_rotate hi]

theorem rotate_error_iff_witness :
    rotate trapezoid 5 = .error .IndexOutOfRange ∧
    rotate trapezoid 2 = .ok (rotateList trapezoid 2) ∧
    (rotateList trapezoid 2).length = trapezoid.length ∧
    (rotateList trapezoid 2)[0]? = trapezoid[(0 + 2) % trapezoid.length]? :=
  ⟨(rotate_error_iff trapezoid 5).1 (by decide),
   ((rotate_error_iff trapezoid 2).2 (by decide)).1,
   ((rotate_error_iff trapezoid 2).2 (by decide)).2.1,
   ((rotate_error_iff trapezoid 2).2 (by decide)).2.2 0 (by decide)⟩

/-- Modelled from the spec: a focus axis, `row` or `column` (§3,
"FocusFunction"). -/
inductive Axis
  | row
  | column
  deriving DecidableEq

/-- Modelled from the spec: one focus element — axis, center ∈ [0,1],
extent ∈ (0,1], factor > 0 (§3, "FocusFunction"); the Python `Focus` class is
missing from the source tree. -/
structure FocusElement where
  axis : Axis
  center : ℝ
  extent : ℝ
  factor : ℝ

/-- Modelled from the spec: the Gaussian-shaped weight of a single focus
element, `w(t) = 1 + (f − 1) · exp(−((t − c)/e)²)` (§4.2). -/
noncomputable def weight (el : FocusElement) (t : ℝ) : ℝ :=
  1 + (el.factor - 1) * Real.exp (-(((t - el.center) / el.extent) ^ 2))

/-- The elements of a focus function acting on one axis, in order. -/
def onAxis (F : List FocusElement) (ax : Axis) : List FocusElement :=
  F.filter fun el => el.axis == ax

/-- Modelled from the spec: the composed weight of the elements acting on one
axis — the pointwise product of their individual weight functions (§4.2). -/
noncomputable def composedWeight (els : List FocusElement) (t : ℝ) : ℝ :=
  (els.map fun el => weight el t).prod

/-- The single integration-and-renormalization pass of §4.2: integrate the
weight from 0 to `t` and renormalize by the integral over [0, 1]. -/
noncomputable def cumulativeW (w : ℝ → ℝ) (t : ℝ) : ℝ :=
  (∫ s in (0:ℝ)..t, w s) / (∫ s in (0:ℝ)..1, w s)

/-- The `n` sample positions produced for one axis: the images under the
cumulative mapping of the `n` uniformly spaced positions `i/(n−1)`. -/
noncomputable def samples (w : ℝ → ℝ) (n : ℕ) : List ℝ :=
  (List.range n).map fun (i : ℕ) => cumulativeW w ((i : ℝ) / ((n : ℝ) - 1))

/-- The uniform (identity-density) sample positions `i/(n−1)`. -/
noncomputable def uniformSamples (n : ℕ) : List ℝ :=
  (List.range n).map fun (i : ℕ) => (i : ℝ) / ((n : ℝ) - 1)

open Classical in
/-- Modelled from the spec: `FocusFunction.generate(n)` (§4.2); the Python
`Focus.__call__`/`Focus.add_focus` machinery is missing from the source tree.
The composed weight of the requested axis is defensively checked for
positivity on [0,1] (failing with `DegenerateFocus` when it is somewhere
non-positive) and otherwise the `n` renormalized cumulative-integral samples
are returned. -/
noncomputable def generate (F : List FocusElement) (ax : Axis) (n : ℕ) :
    Except GridError (List ℝ) :=
  if ∀ t ∈ Set.Icc (0:ℝ) 1, 0 < composedWeight (onAxis F ax) t then
    .ok (samples (composedWeight (onAxis F ax)) n)
  else .error .DegenerateFocus

theorem composedWeight_nil (t : ℝ) : composedWeight [] t = 1 := rfl

theorem composedWeight_cons (e : FocusElement) (es : List FocusElement) (t : ℝ) :
    composedWeight (e :: es) t = weight e t * composedWeight es t := by
  simp [composedWeight]

theorem composedWeight_append (l₁ l₂ : List FocusElement) (t : ℝ) :
    composedWeight (l₁ ++ l₂) t = composedWeight l₁ t * composedWeight l₂ t := by
  simp [composedWeight]

theorem weight_pos (el : FocusElement) (hf : 0 < el.factor) (t : ℝ) :
    0 < weight el t := by
  unfold weight
  set g := Real.exp (-(((t - el.center) / el.extent) ^ 2)) with hg
  have hg0 : 0 < g := Real.exp_pos _
  have hg1 : g ≤ 1 := Real.exp_le_one_iff.mpr (neg_nonpos.mpr (sq_nonneg _))
  nlinarith [mul_pos hf hg0]

theorem weight_continuous (el : FocusElement) : Continuous (weight el) := by
  unfold weight
  exact continuous_const.add ((continuous_const.mul
    (Real.continuous_exp.comp
      (((continuous_id.sub continuous_const).div_const _).pow 2).neg)))

theorem composedWeight_pos (els : List FocusElement)
    (h : ∀ el ∈ els, 0 < el.factor) (t : ℝ) : 0 < composedWeight els t := by
  induction els with
  | nil => simp [composedWeight_nil]
  | cons e es ih =>
    rw [composedWeight_cons]
    exact mul_pos (weight_pos e (h e (by simp)) t)
      (ih fun el hel => h el (by simp [hel]))

theorem composedWeight_continuous (els : List FocusElement) :
    Continuous (composedWeight els) := by
  induction els with
  | nil =>
    have : composedWeight [] = fun _ : ℝ => (1:ℝ) := funext fun t => composedWeight_nil t
    rw [this]
    exact continuous_const
  | cons e es ih =>
    have : composedWeight (e :: es) = fun t => weight e t * composedWeight es t :=
      funext fun t => composedWeight_cons e es t
    rw [this]
    exact (weight_continuous e).mul ih

theorem integralZ_pos {w : ℝ → ℝ} (hcont : Continuous w) (hpos : ∀ t, 0 < w t) :
    0 < ∫ s in (0:ℝ)..1, w s :=
  intervalIntegral.intervalIntegral_pos_of_pos
    (hcont.intervalIntegrable 0 1) hpos one_pos

theorem cumulativeW_zero (w : ℝ → ℝ) : cumulativeW w 0 = 0 := by
  unfold cumulativeW
  rw [intervalIntegral.integral_same, zero_div]

theorem cumulativeW_one {w : ℝ → ℝ} (hcont : Continuous w) (hpos : ∀ t, 0 < w t) :
    cumulativeW w 1 = 1 := by
  unfold cumulativeW
  exact div_self (ne_of_gt (integralZ_pos hcont hpos))

theorem cumulativeW_strictMono {w : ℝ → ℝ} (hcont : Continuous w)
    (hpos : ∀ t, 0 < w t) : StrictMono (cumulativeW w) := by
  intro a b hab
  unfold cumulativeW
  rw [div_lt_div_iff_of_pos_right (integralZ_pos hcont hpos)]
  have hadd : (∫ s in (0:ℝ)..a, w s) + (∫ s in a..b, w s) = ∫ s in (0:ℝ)..b, w s :=
    intervalIntegral.integral_add_adjacent_intervals
      (hcont.intervalIntegrable 0 a) (hcont.intervalIntegrable a b)
  have hmid : 0 < ∫ s in a..b, w s :=
    intervalIntegral.intervalIntegral_pos_of_pos (hcont.intervalIntegrable a b) hpos hab
  linarith

theorem cumulativeW_mem_Icc {w : ℝ → ℝ} (hcont : Continuous w)
    (hpos : ∀ t, 0 < w t) {t : ℝ} (ht : t ∈ Set.Icc (0:ℝ) 1) :
    cumulativeW w t ∈ Set.Icc (0:ℝ) 1 := by
  have hmono := (cumulativeW_strictMono hcont hpos).monotone
  constructor
  · have := hmono ht.1
    rwa [cumulativeW_zero] at this
  · have := hmono ht.2
    rwa [cumulativeW_one hcont hpos] at this

theorem samples_length (w : ℝ → ℝ) (n : ℕ) : (samples w n).length = n := by
  simp [samples]

theorem npos_real {n : ℕ} (hn : 2 ≤ n) : 0 < (n : ℝ) - 1 := by
  have h2 : (2:ℝ) ≤ (n:ℝ) := by exact_mod_cast hn
  linarith

theorem samples_pairwise {w : ℝ → ℝ} (hcont : Continuous w) (hpos : ∀ t, 0 < w t)
    {n : ℕ} (hn : 2 ≤ n) : (samples w n).Pairwise (· < ·) := by
  unfold samples
  refine List.Pairwise.map _ ?_ (List.pairwise_lt_range n)
  intro i j hij
  exact cumulativeW_strictMono hcont hpos
    ((div_lt_div_iff_of_pos_right (npos_real hn)).mpr (by exact_mod_cast hij))

theorem samples_mem {w : ℝ → ℝ} (hcont : Continuous w) (hpos : ∀ t, 0 < w t)
    {n : ℕ} (hn : 2 ≤ n) : ∀ x ∈ samples w n, x ∈ Set.Icc (0:ℝ) 1 := by
  intro x hx
  unfold samples at hx
  obtain ⟨i, hi, rfl⟩ := List.mem_map.mp hx
  have hi' : i < n := List.mem_range.mp hi
  apply cumulativeW_mem_Icc hcont hpos
  constructor
  · exact div_nonneg (Nat.cast_nonneg i) (npos_real hn).le
  · rw [div_le_one (npos_real hn)]
    have hcast : (i:ℝ) + 1 ≤ (n:ℝ) := by exact_mod_cast hi'
    linarith

theorem samples_head? (w : ℝ → ℝ) {n : ℕ} (hn : 2 ≤ n) :
    (samples w n).head? = some (cumulativeW w 0) := by
  unfold samples
  rw [List.head?_map]
  obtain ⟨m, rfl⟩ : ∃ m, n = m + 1 := ⟨n - 1, by omega⟩
  rw [List.range_succ_eq_map]
  simp

theorem samples_getLast? (w : ℝ → ℝ) {n : ℕ} (hn : 2 ≤ n) :
    (samples w n).getLast? = some (cumulativeW w 1) := by
  unfold samples
  rw [List.getLast?_map]
  obtain ⟨m, rfl⟩ : ∃ m, n = m + 1 := ⟨n - 1, by omega⟩
  rw [List.range_succ, List.getLast?_concat]
  have hm0 : ((m:ℕ):ℝ) ≠ 0 := Nat.cast_ne_zero.mpr (by omega)
  simp [div_self hm0]

theorem generate_ok (F : List FocusElement) (ax : Axis) (n : ℕ)
    (hf : ∀ el ∈ F, 0 < el.factor) :
    generate F ax n = .ok (samples (composedWeight (onAxis F ax)) n) := by
  have hpos : ∀ t ∈ Set.Icc (0:ℝ) 1, 0 < composedWeight (onAxis F ax) t := fun t _ =>
    composedWeight_pos _ (fun el hel => hf el (List.mem_filter.mp hel).1) t
  unfold generate
  rw [if_pos hpos]

theorem cumulativeW_const_one (t : ℝ) : cumulativeW (fun _ : ℝ => (1:ℝ)) t = t := by
  unfold cumulativeW
  rw [intervalIntegral.integral_const, intervalIntegral.integral_const]
  simp

theorem samples_const_one (n : ℕ) : samples (fun _ : ℝ => (1:ℝ)) n = uniformSamples n := by
  unfold samples uniformSamples
  simp [cumulativeW_const_one]

theorem generate_nil (ax : Axis) (n : ℕ) :
    generate [] ax n = .ok (uniformSamples n) := by
  have honx : onAxis ([] : List FocusElement) ax = [] := rfl
  have h := generate_ok [] ax n (by simp)
  rw [h, honx]
  have hfun : composedWeight [] = fun _ : ℝ => (1:ℝ) := funext fun t => composedWeight_nil t
  rw [hfun, samples_const_one]

theorem uniformSamples_length (n : ℕ) : (uniformSamples n).length = n := by
  simp [uniformSamples]

theorem uniformSamples_head? {n : ℕ} (hn : 2 ≤ n) : (uniformSamples n).head? = some 0 := by
  rw [← samples_const_one, samples_head? _ hn, cumulativeW_zero]

theorem uniformSamples_getLast? {n : ℕ} (hn : 2 ≤ n) :
    (uniformSamples n).getLast? = some 1 := by
  rw [← samples_const_one, samples_getLast? _ hn, cumulativeW_const_one]

theorem uniformSamples_mem {n : ℕ} (hn : 2 ≤ n) :
    ∀ x ∈ uniformSamples n, x ∈ Set.Icc (0:ℝ) 1 := by
  rw [← samples_const_one]
  exact samples_mem continuous_const (fun _ => one_pos) hn

/-- C3: for every n ≥ 2, `generate(n)` on an empty FocusFunction returns
exactly the n evenly spaced values `i/(n−1)` in [0,1], with first value 0 and
last value 1 (the identity / uniform-density mapping). -/
theorem generate_empty_uniform (ax : Axis) (n : ℕ) (hn : 2 ≤ n) :
    generate [] ax n = .ok (uniformSamples n) ∧
    (uniformSamples n).length = n ∧
    (uniformSamples n).head? = some 0 ∧
    (uniformSamples n).getLast? = some 1 ∧
    ∀ x ∈ uniformSamples n, x ∈ Set.Icc (0:ℝ) 1 :=
  ⟨generate_nil ax n, uniformSamples_length n, uniformSamples_head? hn,
   uniformSamples_getLast? hn, uniformSamples_mem hn⟩

theorem generate_empty_uniform_witness :
    generate [] Axis.row 3 = .ok (uniformSamples 3) ∧
    (uniformSamples 3).length = 3 ∧
    (uniformSamples 3).head? = some 0 ∧
    (uniformSamples 3).getLast? = some 1 := by
  have h := generate_empty_uniform Axis.row 3 (by norm_num)
  exact ⟨h.1, h.2.1, h.2.2.1, h.2.2.2.1⟩

/-- The focus element used in §8 of the spec and in the tutorial:
center 0.5, extent 0.25, factor 5. -/
noncomputable def focusExample : FocusElement :=
  { axis := Axis.row, center := 1/2, extent := 1/4, factor := 5 }

/-- C1: for every non-empty FocusFunction whose elements all have factor > 0
and every n ≥ 2, `generate(n)` succeeds and returns exactly n sample
positions that are strictly increasing, all lie in [0,1], and whose first and
last values are exactly 0 and 1. -/
theorem generate_strictMono_endpoints (F : List FocusElement) (ax : Axis) (n : ℕ)
    (hne : F ≠ []) (hf : ∀ el ∈ F, 0 < el.factor) (hn : 2 ≤ n) :
    generate F ax n = .ok (samples (composedWeight (onAxis F ax)) n) ∧
    (samples (composedWeight (onAxis F ax)) n).length = n ∧
    (samples (composedWeight (onAxis F ax)) n).Pairwise (· < ·) ∧
    (∀ x ∈ samples (composedWeight (onAxis F ax)) n, x ∈ Set.Icc (0:ℝ) 1) ∧
    (samples (composedWeight (onAxis F ax)) n).head? = some 0 ∧
    (samples (composedWeight (onAxis F ax)) n).getLast? = some 1 := by
  have hfax : ∀ el ∈ onAxis F ax, 0 < el.factor := fun el hel =>
    hf el (List.mem_filter.mp hel).1
  have hpos : ∀ t, 0 < composedWeight (onAxis F ax) t := composedWeight_pos _ hfax
  have hcont := composedWeight_continuous (onAxis F ax)
  refine ⟨generate_ok F ax n hf, samples_length _ n, samples_pairwise hcont hpos hn,
    samples_mem hcont hpos hn, ?_, ?_⟩
  · rw [samples_head? _ hn, cumulativeW_zero]
  · rw [samples_getLast? _ hn, cumulativeW_one hcont hpos]

theorem generate_strictMono_endpoints_witness :
    generate [focusExample] Axis.row 11 =
      .ok (samples (composedWeight (onAxis [focusExample] Axis.row)) 11) ∧
    (samples (composedWeight (onAxis [focusExample] Axis.row)) 11).length = 11 ∧
    (samples (composedWeight (onAxis [focusExample] Axis.row)) 11).head? = some 0 ∧
    (samples (composedWeight (onAxis [focusExample] Axis.row)) 11).getLast? = some 1 := by
  have h := generate_strictMono_endpoints [focusExample] Axis.row 11
    (by simp)
    (by
      intro el hel
      rw [List.mem_singleton] at hel
      subst hel
      norm_num [focusExample])
    (by norm_num)
  exact ⟨h.1, h.2.1, h.2.2.2.2.1, h.2.2.2.2.2⟩

/-- C9: with all factors positive the composed pointwise weight is strictly
positive at every t, so the `DegenerateFocus` branch of `generate` is
unreachable; and `DegenerateFocus` is raised only when a composed weight is
non-positive somewhere on [0,1]. -/
theorem degenerateFocus_unreachable (F : List FocusElement) (ax : Axis) :
    ((∀ el ∈ F, 0 < el.factor) → ∀ t : ℝ, 0 < composedWeight (onAxis F ax) t) ∧
    ((∀ el ∈ F, 0 < el.factor) → ∀ n : ℕ, generate F ax n ≠ .error .DegenerateFocus) ∧
    (∀ n : ℕ, generate F ax n = .error .DegenerateFocus →
      ∃ t ∈ Set.Icc (0:ℝ) 1, composedWeight (onAxis F ax) t ≤ 0) := by
  refine ⟨?_, ?_, ?_⟩
  · intro hf t
    exact composedWeight_pos _ (fun el hel => hf el (List.mem_filter.mp hel).1) t
  · intro hf n
    rw [generate_ok F ax n hf]
    simp
  · intro n h
    unfold generate at h
    by_cases hc : ∀ t ∈ Set.Icc (0:ℝ) 1, 0 < composedWeight (onAxis F ax) t
    · rw [if_pos hc] at h
      cases h
    · push_neg at hc
      obtain ⟨t, ht, htle⟩ := hc
      exact ⟨t, ht, htle⟩

theorem degenerateFocus_unreachable_witness :
    0 < composedWeight (onAxis [focusExample] Axis.row) (1/2) ∧
    generate [focusExample] Axis.row 11 ≠ .error .DegenerateFocus := by
  have hf : ∀ el ∈ [focusExample], 0 < el.factor := by
    intro el hel
    rw [List.mem_singleton] at hel
    subst hel
    norm_num [focusExample]
  have h := degenerateFocus_unreachable [focusExample] Axis.row
  exact ⟨h.1 hf (1/2), h.2.1 hf 11⟩

theorem onAxis_append (F G : List FocusElement) (ax : Axis) :
    onAxis (F ++ G) ax = onAxis F ax ++ onAxis G ax :=
  List.filter_append _ _

theorem weight_of_factor_one {el : FocusElement} (hf : el.factor = 1) (t : ℝ) :
    weight el t = 1 := by
  unfold weight
  rw [hf]
  ring

theorem composedWeight_append_factor_one {el : FocusElement} (hf : el.factor = 1)
    (l : List FocusElement) (t : ℝ) :
    composedWeight (l ++ [el]) t = composedWeight l t := by
  rw [composedWeight_append, composedWeight_cons, composedWeight_nil,
    weight_of_factor_one hf]
  ring

theorem composedWeight_onAxis_append_one (F : List FocusElement) (el : FocusElement)
    (hf : el.factor = 1) (ax : Axis) :
    composedWeight (onAxis (F ++ [el]) ax) = composedWeight (onAxis F ax) := by
  funext t
  rw [onAxis_append]
  by_cases hax : el.axis = ax
  · have hone : onAxis [el] ax = [el] := by
      simp [onAxis, List.filter, hax]
    rw [hone, composedWeight_append_factor_one hf]
  · have hb : (el.axis == ax) = false := beq_eq_false_iff_ne.mpr hax
    have hnil : onAxis [el] ax = [] := by
      simp [onAxis, List.filter, hb]
    rw [hnil, List.append_nil]

/-- C7: appending a focus element with factor 1 (any axis, center in [0,1],
extent in (0,1]) to any FocusFunction leaves `generate(n)` identical, and in
particular adding such an element to an empty FocusFunction still yields the
uniform spacing. -/
theorem addFocus_factor_one_noop (F : List FocusElement) (el : FocusElement)
    (ax : Axis) (n : ℕ) (hc : el.center ∈ Set.Icc (0:ℝ) 1)
    (he : el.extent ∈ Set.Ioc (0:ℝ) 1) (hf : el.factor = 1) (hn : 2 ≤ n) :
    generate (F ++ [el]) ax n = generate F ax n ∧
    generate [el] ax n = .ok (uniformSamples n) := by
  constructor
  · unfold generate
    rw [composedWeight_onAxis_append_one F el hf ax]
  · have h1 : generate ([] ++ [el]) ax n = generate [] ax n := by
      unfold generate
      rw [composedWeight_onAxis_append_one [] el hf ax]
    rw [show ([el] : List FocusElement) = [] ++ [el] from rfl, h1]
    exact generate_nil ax n

/-- A focus element with factor 1, used to witness the no-op law. -/
noncomputable def noopElement : FocusElement :=
  { axis := Axis.row, center := 1/2, extent := 1/4, factor := 1 }

theorem addFocus_factor_one_noop_witness :
    generate ([focusExample] ++ [noopElement]) Axis.row 5 =
      generate [focusExample] Axis.row 5 ∧
    generate [noopElement] Axis.row 5 = .ok (uniformSamples 5) :=
  addFocus_factor_one_noop [focusExample] noopElement Axis.row 5
    (by rw [Set.mem_Icc]; norm_num [noopElement])
    (by rw [Set.mem_Ioc]; norm_num [noopElement])
    (by norm_num [noopElement])
    (by norm_num)

/-- The mapping described by the spec for multi-element composition: multiply
all of the axis's element weight functions pointwise, then perform a single
integration-and-renormalization pass over the product. -/
noncomputable def singlePassMapping (ws : List (ℝ → ℝ)) (n : ℕ) : List ℝ :=
  (List.range n).map fun (i : ℕ) =>
    (∫ s in (0:ℝ)..((i : ℝ) / ((n : ℝ) - 1)), (ws.map fun w => w s).prod) /
      (∫ s in (0:ℝ)..1, (ws.map fun w => w s).prod)

theorem composedWeight_eq_prod_weights (els : List FocusElement) (t : ℝ) :
    ((els.map weight).map fun w => w t).prod = composedWeight els t := by
  rw [List.map_map]
  rfl

theorem singlePassMapping_eq_samples (els : List FocusElement) (n : ℕ) :
    singlePassMapping (els.map weight) n = samples (composedWeight els) n := by
  have hfun : (fun s => ((els.map weight).map fun w => w s).prod) = composedWeight els :=
    funext fun s => composedWeight_eq_prod_weights els s
  unfold singlePassMapping samples cumulativeW
  rw [hfun]

/-- C2: for a FocusFunction with at least two elements on the requested axis
(all factors positive) and any n ≥ 2, `generate(n)` is exactly the mapping
obtained by multiplying all that axis's weight functions pointwise and then
performing a single integration-and-renormalization pass over the product —
not a chain of separately renormalized per-element mappings. -/
theorem generate_single_pass (F : List FocusElement) (ax : Axis) (n : ℕ)
    (hlen : 2 ≤ (onAxis F ax).length) (hf : ∀ el ∈ F, 0 < el.factor) (hn : 2 ≤ n) :
    generate F ax n = .ok (singlePassMapping ((onAxis F ax).map weight) n) := by
  rw [generate_ok F ax n hf, singlePassMapping_eq_samples]

/-- A second focus element on the row axis, to witness multi-element
composition. -/
noncomputable def focusExample2 : FocusElement :=
  { axis := Axis.row, center := 1/4, extent := 1/2, factor := 2 }

theorem generate_single_pass_witness :
    generate [focusExample, focusExample2] Axis.row 5 =
      .ok (singlePassMapping ((onAxis [focusExample, focusExample2] Axis.row).map weight) 5) := by
  refine generate_single_pass [focusExample, focusExample2] Axis.row 5 ?_ ?_ (by norm_num)
  · simp [onAxis, List.filter, focusExample, focusExample2]
  · intro el hel
    rcases List.mem_cons.mp hel with h | h
    · subst h
      norm_num [focusExample]
    · rw [List.mem_singleton] at h
      subst h
      norm_num [focusExample2]

/-- Modelled from the spec: the node-coordinate arrays and validity mask
returned by the external solver (§6, solver collaborator contract). -/
structure SolverOutput where
  x : List (List ℝ)
  y : List (List ℝ)
  mask : List (List Bool)

/-- The external solver collaborator, treated as a black box (§2, §6): it
consumes the rotated boundary, the two density tables and the shape, and
either returns node arrays or fails. -/
def Solver : Type :=
  List Vertex → List ℝ → List ℝ → ℕ × ℕ → Except GridError SolverOutput

/-- Modelled from the spec: the generated Grid (§3, "Grid") — node coordinate
arrays, validity mask, and the boundary data (`xbry`, `ybry`, `beta`) kept
for provenance. -/
structure Grid where
  x : List (List ℝ)
  y : List (List ℝ)
  mask : List (List Bool)
  xbry : List ℚ
  ybry : List ℚ
  beta : List ℤ

/-- Modelled from the spec: the GridRequest orchestration of §4.3 (the
`Gridgen` class is missing from the source tree): validate the boundary,
rotate it to the requested upper-left index, compute the per-axis density
tables with `generate`, invoke the external solver, and wrap its output
together with the boundary data supplied at construction. -/
noncomputable def generateGrid (solver : Solver) (vs : List Vertex) (ulIdx : ℕ)
    (shape : ℕ × ℕ) (F : List FocusElement) : Except GridError Grid := do
  let b ← validate vs
  let rb ← rotate b ulIdx
  let rowTable ← generate F Axis.row shape.1
  let colTable ← generate F Axis.column shape.2
  let out ← solver rb rowTable colTable shape
  pure { x := out.x, y := out.y, mask := out.mask,
         xbry := vs.map Vertex.x, ybry := vs.map Vertex.y,
         beta := vs.map Vertex.beta }

theorem except_bind_ok {α β : Type} (a : α) (f : α → Except GridError β) :
    (Except.ok a >>= f) = f a := rfl

theorem except_bind_error {α β : Type} (e : GridError) (f : α → Except GridError β) :
    ((Except.error e : Except GridError α) >>= f) = .error e := rfl

/-- C10: for every successfully generated grid, the boundary data the grid
exposes (its `xbry` and `ybry` coordinate arrays and its `beta` array) is
equal, element by element and in order, to the boundary arrays supplied at
construction: grid generation reads the boundary description but never
modifies it. -/
theorem generateGrid_preserves_boundary (solver : Solver) (vs : List Vertex)
    (ulIdx : ℕ) (shape : ℕ × ℕ) (F : List FocusElement) (g : Grid)
    (h : generateGrid solver vs ulIdx shape F = .ok g) :
    g.xbry = vs.map Vertex.x ∧ g.ybry = vs.map Vertex.y ∧
    g.beta = vs.map Vertex.beta := by
  unfold generateGrid at h
  cases hv : validate vs with
  | error e =>
    rw [hv, except_bind_error] at h
    cases h
  | ok b =>
    rw [hv, except_bind_ok] at h
    cases hr : rotate b ulIdx with
    | error e =>
      rw [hr, except_bind_error] at h
      cases h
    | ok rb =>
      rw [hr, except_bind_ok] at h
      cases hg1 : generate F Axis.row shape.1 with
      | error e =>
        rw [hg1, except_bind_error] at h
        cases h
      | ok rt =>
        rw [hg1, except_bind_ok] at h
        cases hg2 : generate F Axis.column shape.2 with
        | error e =>
          rw [hg2, except_bind_error] at h
          cases h
        | ok ct =>
          rw [hg2, except_bind_ok] at h
          cases hs : solver rb rt ct shape with
          | error e =>
            rw [hs, except_bind_error] at h
            cases h
          | ok out =>
            rw [hs, except_bind_ok] at h
            cases h
            exact ⟨rfl, rfl, rfl⟩

/-- A trivial solver used to witness the boundary-preservation theorem. -/
def trivialSolver : Solver := fun _ _ _ _ =>
  .ok { x := [], y := [], mask := [] }

/-- The grid the trivial solver produces for the trapezoid boundary. -/
def gridExample : Grid :=
  { x := [], y := [], mask := [],
    xbry := trapezoid.map Vertex.x, ybry := trapezoid.map Vertex.y,
    beta := trapezoid.map Vertex.beta }

theorem generateGrid_example :
    generateGrid trivialSolver trapezoid 0 (2, 2) [] = .ok gridExample := by
  unfold generateGrid
  rw [show validate trapezoid = .ok trapezoid from rfl, except_bind_ok,
    show rotate trapezoid 0 = .ok (rotateList trapezoid 0) from rfl, except_bind_ok,
    show ((2, 2) : ℕ × ℕ).1 = 2 from rfl, show ((2, 2) : ℕ × ℕ).2 = 2 from rfl,
    generate_nil Axis.row 2, except_bind_ok,
    generate_nil Axis.column 2, except_bind_ok]
  rfl

theorem generateGrid_preserves_boundary_witness :
    gridExample.xbry = trapezoid.map Vertex.x ∧
    gridExample.ybry = trapezoid.map Vertex.y ∧
    gridExample.beta = trapezoid.map Vertex.beta :=
  generateGrid_preserves_boundary trivialSolver trapezoid 0 (2, 2) [] gridExample
    generateGrid_example
